import Mathlib

/-!
Shallow embedding of the auto-complete repository (Go).

Algorithm 1 (contextual bigram-based trie): `TrieNodeA1`, `TrieA1`,
`TrieA1.Insert`, `BuildBigramTable`, `searchPrefixA1`, `collectCompletions`
(here `collectNode`/`collectChildren`), `rankByContextualProbability`,
`TrieA1.Autocomplete`.

Algorithm 2 (frequency-based trie): `TriesA2` with `Insert`, `getFrequency`,
`Autocomplete` capped at 10 suggestions; the interactive variant `Tries` in
the same source file has an identical `Autocomplete` body, so one embedding
stands for both.

Modelling conventions:
- Go strings are iterated by code point (`for _, char := range word`), so a
  word is a `List Char`.
- Go `map[rune]*TrieNodeA1` / `map[string]int` are association structures;
  Go map iteration order is unspecified, so any fixed order is a valid
  refinement and the association-list order is used.
- Go `int` counters are only ever incremented by 1 from 0, so they are `Nat`.
- Go `float64` division is modelled exactly over `ℚ`.
- `sort.Slice` with a strict `>` comparator produces some order that is
  non-increasing in the key; `List.insertionSort` with the corresponding
  non-strict relation is one compliant refinement.
- Go slicing `xs[:k]` panics when `k` is negative or exceeds `len(xs)`; the
  panic is modelled by `Option`: `none` is a runtime panic.
-/

namespace AutoComplete

abbrev Word := List Char

mutual

inductive TrieNodeA1 : Type where
  | mk : ChildrenA1 → Bool → Nat → TrieNodeA1

inductive ChildrenA1 : Type where
  | nil : ChildrenA1
  | cons : Char → TrieNodeA1 → ChildrenA1 → ChildrenA1

end

def TrieNodeA1.children : TrieNodeA1 → ChildrenA1
  | .mk cs _ _ => cs

def TrieNodeA1.isEnd : TrieNodeA1 → Bool
  | .mk _ e _ => e

def TrieNodeA1.frequency : TrieNodeA1 → Nat
  | .mk _ _ f => f

/-- `NewTrieNodeA1()`: fresh node, no children, not end of word, frequency 0. -/
def NewTrieNodeA1 : TrieNodeA1 := .mk .nil false 0

/-- Reading `node.children[char]`: the mapped child, if present. -/
def childLookup : ChildrenA1 → Char → Option TrieNodeA1
  | .nil, _ => none
  | .cons c n rest, x => if c = x then some n else childLookup rest x

/-- Writing `node.children[char] = n`: replace the mapping if the key is
present, otherwise add it. -/
def childSet : ChildrenA1 → Char → TrieNodeA1 → ChildrenA1
  | .nil, x, n => .cons x n .nil
  | .cons c m rest, x, n =>
      if c = x then .cons c n rest else .cons c m (childSet rest x n)

/-- `(t *TrieA1) Insert(word)`, acting on a node: walk the word's code
points, creating missing children, then set `isEnd` and increment
`frequency` at the final node. -/
def insertNode : TrieNodeA1 → Word → TrieNodeA1
  | .mk cs _ f, [] => .mk cs true (f + 1)
  | node, x :: xs =>
      let child := (childLookup node.children x).getD NewTrieNodeA1
      .mk (childSet node.children x (insertNode child xs)) node.isEnd node.frequency

/-- `(t *TrieA1) searchPrefix(prefix)`: descend by code point; `none` when a
code point is missing. -/
def searchPrefixA1 : TrieNodeA1 → Word → Option TrieNodeA1
  | node, [] => some node
  | node, x :: xs =>
      match childLookup node.children x with
      | some child => searchPrefixA1 child xs
      | none => none

mutual

/-- `(t *TrieA1) collectCompletions(node, prefix)`: depth-first traversal
emitting `(word, frequency)` at every end-of-word node, the word being the
accumulated path. -/
def collectNode : TrieNodeA1 → Word → List (Word × Nat)
  | .mk cs e f, path =>
      (if e then [(path, f)] else []) ++ collectChildren cs path

def collectChildren : ChildrenA1 → Word → List (Word × Nat)
  | .nil, _ => []
  | .cons c n rest, path => collectNode n (path ++ [c]) ++ collectChildren rest path

end

/-- The reserved aggregate key of the bigram table, Go string `_total`. -/
def totalKey : Word := ['_', 't', 'o', 't', 'a', 'l']

/-- One inner bigram map `map[string]int`. -/
abbrev BigramRow := List (Word × Nat)

/-- The outer table `map[string]map[string]int`. -/
abbrev BigramTable := List (Word × BigramRow)

/-- Reading a Go `map[string]int`: the zero value 0 for an absent key. -/
def alistGet : BigramRow → Word → Nat
  | [], _ => 0
  | (k, v) :: rest, x => if k = x then v else alistGet rest x

/-- `m[k]++` on a Go `map[string]int`: increment present key, else store 1. -/
def alistIncr : BigramRow → Word → BigramRow
  | [], x => [(x, 1)]
  | (k, v) :: rest, x =>
      if k = x then (k, v + 1) :: rest else (k, v) :: alistIncr rest x

/-- Reading the outer `bigramTable[word]` with its presence bit. -/
def tableFind : BigramTable → Word → Option BigramRow
  | [], _ => none
  | (k, row) :: rest, x => if k = x then some row else tableFind rest x

/-- Writing `bigramTable[word] = row`. -/
def tableSet : BigramTable → Word → BigramRow → BigramTable
  | [], x, row => [(x, row)]
  | (k, r) :: rest, x, row =>
      if k = x then (k, row) :: rest else (k, r) :: tableSet rest x row

/-- One iteration of `BuildBigramTable`'s loop body for the pair
`(word1, word2)`: create the row `{"_total": 0}` if absent, then
`bigramTable[word1][word2]++` and `bigramTable[word1]["_total"]++`. -/
def addBigram (t : BigramTable) (w1 w2 : Word) : BigramTable :=
  let row :=
    match tableFind t w1 with
    | some r => r
    | none => [(totalKey, 0)]
  tableSet t w1 (alistIncr (alistIncr row w2) totalKey)

/-- The loop of `BuildBigramTable`: fold `addBigram` over all adjacent pairs
`(corpus[i], corpus[i+1])`, `i` in `[0, len-2]`. -/
def buildPairs : BigramTable → List Word → BigramTable
  | t, w1 :: w2 :: rest => buildPairs (addBigram t w1 w2) (w2 :: rest)
  | t, _ => t

structure TrieA1 where
  root : TrieNodeA1
  bigramTable : BigramTable

def NewTrieA1 : TrieA1 := ⟨NewTrieNodeA1, []⟩

def TrieA1.Insert (t : TrieA1) (w : Word) : TrieA1 :=
  { t with root := insertNode t.root w }

def TrieA1.BuildBigramTable (t : TrieA1) (corpus : List Word) : TrieA1 :=
  { t with bigramTable := buildPairs t.bigramTable corpus }

/-- The build sequence used by `main` and the tests: insert every corpus
word, then build the bigram table from the same corpus. -/
def buildTrie (corpus : List Word) : TrieA1 :=
  TrieA1.BuildBigramTable (corpus.foldl TrieA1.Insert NewTrieA1) corpus

/-- The comparator of both `sort.Slice` calls in
`rankByContextualProbability`, as the non-strict relation the sorted output
satisfies: entry `a` may precede entry `b` when `a`'s probability is at
least `b`'s. -/
def probGE (a b : Word × ℚ) : Prop := b.2 ≤ a.2

instance : DecidableRel probGE := fun a b => inferInstanceAs (Decidable (b.2 ≤ a.2))

instance : IsTotal (Word × ℚ) probGE := ⟨fun a b => le_total b.2 a.2⟩

instance : IsTrans (Word × ℚ) probGE := ⟨fun _ _ _ h1 h2 => le_trans h2 h1⟩

/-- `sort.Slice(ranked, func(i, j) { return ranked[i].probability >
ranked[j].probability })`: an unstable sort; insertion sort by `probGE` is
one compliant refinement. -/
def sortRanked (l : List (Word × ℚ)) : List (Word × ℚ) :=
  List.insertionSort probGE l

/-- The fallback branch of `rankByContextualProbability` (also the spec's
frequency ranking strategy): `probability = frequency / Σ frequencies`,
sorted by descending probability. The running total is the loop
`totalFreq += completion.frequency`. -/
def rankByFrequency (completions : List (Word × Nat)) : List (Word × ℚ) :=
  let totalFreq : Nat := completions.foldl (fun acc c => acc + c.2) 0
  sortRanked (completions.map fun c => (c.1, (c.2 : ℚ) / (totalFreq : ℚ)))

/-- `(t *TrieA1) rankByContextualProbability(prefix, completions)`: when the
bigram table has a row for the supplied key, `probability =
contextData[word] / contextData["_total"]`; otherwise rank by raw
frequency. Both branches sort by descending probability. -/
def rankByContextualProbability (table : BigramTable) (pre : Word)
    (completions : List (Word × Nat)) : List (Word × ℚ) :=
  match tableFind table pre with
  | some contextData =>
      let totalFrequency := alistGet contextData totalKey
      sortRanked (completions.map fun c =>
        (c.1, (alistGet contextData c.1 : ℚ) / (totalFrequency : ℚ)))
  | none => rankByFrequency completions

/-- Go slicing `l[:k]` on an `int` index: defined when `0 ≤ k ≤ len(l)`,
a runtime panic (`none`) otherwise. -/
def goSliceTo (l : List (Word × ℚ)) (k : ℤ) : Option (List (Word × ℚ)) :=
  if 0 ≤ k ∧ k ≤ l.length then some (l.take k.toNat) else none

/-- `(t *TrieA1) Autocomplete(prefix, k)`: `nil` (the empty list) when the
prefix path is absent; otherwise collect, rank, clamp `k` down to the
number of ranked completions, and slice. A `none` result is the Go panic
raised by `rankedCompletions[:k]` for negative `k`. -/
def TrieA1.Autocomplete (t : TrieA1) (pre : Word) (k : ℤ) :
    Option (List (Word × ℚ)) :=
  match searchPrefixA1 t.root pre with
  | none => some []
  | some node =>
      let completions := collectNode node pre
      let rankedCompletions := rankByContextualProbability t.bigramTable pre completions
      let k2 : ℤ := if k > (rankedCompletions.length : ℤ) then (rankedCompletions.length : ℤ) else k
      goSliceTo rankedCompletions k2

/-- `(t *TriesA2) getFrequency(word)` (identical in the `Tries` variant):
descend by code point, 0 when the path is absent, else the final node's
frequency counter. `NodeA2` has exactly the fields of `TrieNodeA1`, so the
node type is shared. -/
def getFrequency : TrieNodeA1 → Word → Nat
  | node, [] => node.frequency
  | node, x :: xs =>
      match childLookup node.children x with
      | some child => getFrequency child xs
      | none => 0

mutual

/-- `collectWordsA2(node, prefix, results)` (identical to `collectWords` of
the `Tries` variant): depth-first word collection. -/
def collectWordsNode : TrieNodeA1 → Word → List Word
  | .mk cs e _, pre => (if e then [pre] else []) ++ collectWordsChildren cs pre

def collectWordsChildren : ChildrenA1 → Word → List Word
  | .nil, _ => []
  | .cons c n rest, pre =>
      collectWordsNode n (pre ++ [c]) ++ collectWordsChildren rest pre

end

structure TriesA2 where
  root : TrieNodeA1

def initTriesA2 : TriesA2 := ⟨.mk .nil false 0⟩

/-- `(t *TriesA2) Insert(word)`: same walk as algorithm 1's insert. -/
def TriesA2.Insert (t : TriesA2) (w : Word) : TriesA2 :=
  ⟨insertNode t.root w⟩

/-- The comparator of `sort.Slice` in `TriesA2.Autocomplete`
(`getFrequency(results[i]) > getFrequency(results[j])`), as the non-strict
relation of the sorted output, relative to a fixed root. -/
def freqGE (root : TrieNodeA1) (a b : Word) : Prop :=
  getFrequency root b ≤ getFrequency root a

/-- The trailing `if len(results) > 10 { results = results[:10] }` of
`TriesA2.Autocomplete`. -/
def goTop10 (l : List Word) : List Word :=
  if l.length > 10 then l.take 10 else l

/-- `(t *TriesA2) Autocomplete(prefix)` (identical in the `Tries` variant):
walk the prefix (empty list when absent), collect the subtree's words, sort
by descending stored frequency, and keep at most the top 10. -/
def TriesA2.Autocomplete (t : TriesA2) (pre : Word) : List Word :=
  match searchPrefixA1 t.root pre with
  | none => []
  | some current =>
      let results := collectWordsNode current pre
      let sorted :=
        @List.insertionSort Word (freqGE t.root)
          (fun a b => inferInstanceAs (Decidable (getFrequency t.root b ≤ getFrequency t.root a)))
          results
      goTop10 sorted

mutual

/-- Number of trie nodes in a subtree (the node itself included). -/
def nodeCount : TrieNodeA1 → Nat
  | .mk cs _ _ => 1 + childrenCount cs

def childrenCount : ChildrenA1 → Nat
  | .nil => 0
  | .cons _ n rest => nodeCount n + childrenCount rest

end

mutual

/-- Invariant of every trie reachable by `Insert` alone: each end-of-word
node has been inserted at least once, so its frequency is at least 1. -/
def nodeWF : TrieNodeA1 → Prop
  | .mk cs e f => (e = true → 1 ≤ f) ∧ childrenWF cs

def childrenWF : ChildrenA1 → Prop
  | .nil => True
  | .cons _ n rest => nodeWF n ∧ childrenWF rest

end

/-- Sum of the probabilities of a ranked result list. -/
def sumProbs (l : List (Word × ℚ)) : ℚ := (l.map Prod.snd).sum

/-- Sum of a bigram row's genuine successor counts: every entry except the
reserved aggregate key `_total`. -/
def succSum (m : BigramRow) : Nat :=
  ((m.filter fun e => e.1 ≠ totalKey).map Prod.snd).sum

/-- Concrete words for counterexamples and witnesses. -/
def wHello : Word := ['h', 'e', 'l', 'l', 'o']

def wWorld : Word := ['w', 'o', 'r', 'l', 'd']

def wHe : Word := ['h', 'e']

def wXyz : Word := ['x', 'y', 'z']

def wA : Word := ['a']

def wB : Word := ['b']

/-! ### Association-structure lemmas -/

theorem alistGet_incr_self : ∀ (m : BigramRow) (k : Word),
    alistGet (alistIncr m k) k = alistGet m k + 1
  | [], k => by simp [alistIncr, alistGet]
  | (k1, v1) :: rest, k => by
      by_cases h : k1 = k
      · subst h; simp [alistIncr, alistGet]
      · simp [alistIncr, alistGet, h, alistGet_incr_self rest k]

theorem alistGet_incr_ne : ∀ (m : BigramRow) (k x : Word), k ≠ x →
    alistGet (alistIncr m k) x = alistGet m x
  | [], k, x, hkx => by simp [alistIncr, alistGet, hkx]
  | (k1, v1) :: rest, k, x, hkx => by
      by_cases h : k1 = k
      · subst h; simp [alistIncr, alistGet, hkx]
      · by_cases h2 : k1 = x
        · subst h2; simp [alistIncr, alistGet, h]
        · simp [alistIncr, alistGet, h, h2, alistGet_incr_ne rest k x hkx]

theorem tableFind_set_self : ∀ (t : BigramTable) (k : Word) (row : BigramRow),
    tableFind (tableSet t k row) k = some row
  | [], k, row => by simp [tableSet, tableFind]
  | (k1, r1) :: rest, k, row => by
      by_cases h : k1 = k
      · subst h; simp [tableSet, tableFind]
      · simp [tableSet, tableFind, h, tableFind_set_self rest k row]

theorem tableFind_set_ne : ∀ (t : BigramTable) (k x : Word) (row : BigramRow), k ≠ x →
    tableFind (tableSet t k row) x = tableFind t x
  | [], k, x, row, hkx => by simp [tableSet, tableFind, hkx]
  | (k1, r1) :: rest, k, x, row, hkx => by
      by_cases h : k1 = k
      · subst h; simp [tableSet, tableFind, hkx]
      · by_cases h2 : k1 = x
        · subst h2; simp [tableSet, tableFind, h]
        · simp [tableSet, tableFind, h, h2, tableFind_set_ne rest k x row hkx]

theorem childLookup_childSet_self : ∀ (cs : ChildrenA1) (x : Char) (n : TrieNodeA1),
    childLookup (childSet cs x n) x = some n
  | .nil, x, n => by simp [childSet, childLookup]
  | .cons c m rest, x, n => by
      by_cases h : c = x
      · subst h; simp [childSet, childLookup]
      · simp [childSet, childLookup, h, childLookup_childSet_self rest x n]

/-! ### Sorting lemmas -/

theorem sortRanked_perm (l : List (Word × ℚ)) : (sortRanked l).Perm l :=
  List.perm_insertionSort probGE l

theorem sortRanked_sorted (l : List (Word × ℚ)) : List.Sorted probGE (sortRanked l) :=
  List.sorted_insertionSort probGE l

theorem mem_sortRanked {x : Word × ℚ} {l : List (Word × ℚ)} :
    x ∈ sortRanked l ↔ x ∈ l :=
  (sortRanked_perm l).mem_iff

theorem sumProbs_sortRanked (l : List (Word × ℚ)) : sumProbs (sortRanked l) = sumProbs l :=
  List.Perm.sum_eq (List.Perm.map Prod.snd (sortRanked_perm l))

/-! ### The insert-only invariant: end-of-word nodes have frequency ≥ 1 -/

theorem nodeWF_new : nodeWF NewTrieNodeA1 := by
  simp [NewTrieNodeA1, nodeWF, childrenWF]

theorem childrenWF_lookup : ∀ (cs : ChildrenA1) (x : Char) (n : TrieNodeA1),
    childrenWF cs → childLookup cs x = some n → nodeWF n
  | .nil, x, n, _, h => by simp [childLookup] at h
  | .cons c m rest, x, n, hwf, h => by
      simp only [childrenWF] at hwf
      by_cases hc : c = x
      · simp [childLookup, hc] at h
        exact h ▸ hwf.1
      · simp only [childLookup, hc, if_false] at h
        exact childrenWF_lookup rest x n hwf.2 h

theorem childrenWF_childSet : ∀ (cs : ChildrenA1) (x : Char) (n : TrieNodeA1),
    childrenWF cs → nodeWF n → childrenWF (childSet cs x n)
  | .nil, x, n, _, hn => by simp [childSet, childrenWF, hn]
  | .cons c m rest, x, n, hwf, hn => by
      simp only [childrenWF] at hwf
      by_cases hc : c = x
      · simp [childSet, hc, childrenWF, hn, hwf.2]
      · simp [childSet, hc, childrenWF, hwf.1, childrenWF_childSet rest x n hwf.2 hn]

theorem nodeWF_insert : ∀ (w : Word) (n : TrieNodeA1), nodeWF n → nodeWF (insertNode n w)
  | [], .mk cs e f, hwf => by
      simp only [nodeWF] at hwf ⊢
      simp [insertNode, hwf.2]
  | x :: xs, .mk cs e f, hwf => by
      simp only [nodeWF] at hwf ⊢
      refine ⟨hwf.1, ?_⟩
      apply childrenWF_childSet _ _ _ hwf.2
      apply nodeWF_insert
      cases hchild : childLookup cs x with
      | none => simpa [TrieNodeA1.children, hchild] using nodeWF_new
      | some child =>
          simpa [TrieNodeA1.children, hchild] using childrenWF_lookup cs x child hwf.2 hchild

mutual

theorem nodeWF_collect : ∀ (n : TrieNodeA1) (path : Word) (x : Word × Nat),
    nodeWF n → x ∈ collectNode n path → 1 ≤ x.2
  | .mk cs e f, path, x, hwf, hx => by
      simp only [collectNode, List.mem_append] at hx
      simp only [nodeWF] at hwf
      rcases hx with hx | hx
      · rcases e with _ | _
        · simp at hx
        · simp at hx
          subst hx
          exact hwf.1 rfl
      · exact childrenWF_collect cs path x hwf.2 hx

theorem childrenWF_collect : ∀ (cs : ChildrenA1) (path : Word) (x : Word × Nat),
    childrenWF cs → x ∈ collectChildren cs path → 1 ≤ x.2
  | .nil, _, x, _, hx => by simp [collectChildren] at hx
  | .cons c n rest, path, x, hwf, hx => by
      simp only [collectChildren, List.mem_append] at hx
      simp only [childrenWF] at hwf
      rcases hx with hx | hx
      · exact nodeWF_collect n (path ++ [c]) x hwf.1 hx
      · exact childrenWF_collect rest path x hwf.2 hx

end

theorem nodeWF_search : ∀ (p : Word) (n m : TrieNodeA1),
    nodeWF n → searchPrefixA1 n p = some m → nodeWF m
  | [], n, m, hwf, h => by
      simp [searchPrefixA1] at h
      exact h ▸ hwf
  | x :: xs, .mk cs e f, m, hwf, h => by
      simp only [searchPrefixA1] at h
      cases hchild : childLookup (TrieNodeA1.mk cs e f).children x with
      | none => rw [hchild] at h; cases h
      | some child =>
          rw [hchild] at h
          simp only [nodeWF] at hwf
          exact nodeWF_search xs child m
            (childrenWF_lookup cs x child hwf.2 (by simpa [TrieNodeA1.children] using hchild)) h

theorem foldl_insert_root_wf : ∀ (ws : List Word) (t : TrieA1),
    nodeWF t.root → nodeWF ((List.foldl TrieA1.Insert t ws).root)
  | [], t, hwf => hwf
  | w :: ws, t, hwf => by
      apply foldl_insert_root_wf ws
      exact nodeWF_insert w t.root hwf

theorem foldl_insert_table : ∀ (ws : List Word) (t : TrieA1),
    (List.foldl TrieA1.Insert t ws).bigramTable = t.bigramTable
  | [], _ => rfl
  | w :: ws, t => foldl_insert_table ws (TrieA1.Insert t w)

theorem buildTrie_root_wf (ws : List Word) : nodeWF (buildTrie ws).root :=
  foldl_insert_root_wf ws NewTrieA1 nodeWF_new

/-! ### Bigram-table invariants -/

theorem addBigram_total (t : BigramTable) (w1 w2 : Word)
    (hinv : ∀ pre m, tableFind t pre = some m → 1 ≤ alistGet m totalKey) :
    ∀ pre m, tableFind (addBigram t w1 w2) pre = some m → 1 ≤ alistGet m totalKey := by
  intro pre m hfind
  by_cases hpre : w1 = pre
  · subst hpre
    rw [addBigram, tableFind_set_self] at hfind
    cases hfind
    rw [alistGet_incr_self]
    omega
  · rw [addBigram, tableFind_set_ne _ _ _ _ hpre] at hfind
    exact hinv pre m hfind

theorem buildPairs_total : ∀ (ws : List Word) (t : BigramTable),
    (∀ pre m, tableFind t pre = some m → 1 ≤ alistGet m totalKey) →
    ∀ pre m, tableFind (buildPairs t ws) pre = some m → 1 ≤ alistGet m totalKey
  | [], t, hinv => by simpa [buildPairs] using hinv
  | [w], t, hinv => by simpa [buildPairs] using hinv
  | w1 :: w2 :: rest, t, hinv => by
      rw [buildPairs]
      exact buildPairs_total (w2 :: rest) (addBigram t w1 w2) (addBigram_total t w1 w2 hinv)

theorem buildTrie_table (ws : List Word) :
    (buildTrie ws).bigramTable = buildPairs [] ws := by
  show (TrieA1.BuildBigramTable _ ws).bigramTable = _
  rw [TrieA1.BuildBigramTable]
  rw [foldl_insert_table ws NewTrieA1]
  rfl

theorem buildTrie_total (ws : List Word) :
    ∀ pre m, tableFind (buildTrie ws).bigramTable pre = some m → 1 ≤ alistGet m totalKey := by
  rw [buildTrie_table]
  exact buildPairs_total ws [] (by intro pre m h; cases h)

/-! ### Sum arithmetic -/

theorem foldl_add_sum : ∀ (l : List (Word × Nat)) (a : Nat),
    l.foldl (fun acc c => acc + c.2) a = a + (l.map Prod.snd).sum
  | [], a => by simp
  | c :: rest, a => by
      simp only [List.foldl_cons, List.map_cons, List.sum_cons]
      rw [foldl_add_sum rest (a + c.2)]
      ring

theorem sum_map_div : ∀ (l : List ℚ) (d : ℚ),
    (l.map fun q => q / d).sum = l.sum / d
  | [], d => by simp
  | q :: rest, d => by
      simp only [List.map_cons, List.sum_cons]
      rw [sum_map_div rest d, add_div]

/-! ### Prefix preservation through collection and ranking -/

mutual

theorem collectNode_isPre : ∀ (n : TrieNodeA1) (path : Word) (x : Word × Nat),
    x ∈ collectNode n path → path <+: x.1
  | .mk cs e f, path, x, hx => by
      simp only [collectNode, List.mem_append] at hx
      rcases hx with hx | hx
      · rcases e with _ | _
        · simp at hx
        · simp at hx
          subst hx
          exact List.prefix_rfl
      · exact collectChildren_isPre cs path x hx

theorem collectChildren_isPre : ∀ (cs : ChildrenA1) (path : Word) (x : Word × Nat),
    x ∈ collectChildren cs path → path <+: x.1
  | .nil, _, x, hx => by simp [collectChildren] at hx
  | .cons c n rest, path, x, hx => by
      simp only [collectChildren, List.mem_append] at hx
      rcases hx with hx | hx
      · exact List.IsPrefix.trans (List.prefix_append path [c]) (collectNode_isPre n (path ++ [c]) x hx)
      · exact collectChildren_isPre rest path x hx

end

theorem mem_rank_exists {table : BigramTable} {pre : Word} {comps : List (Word × Nat)}
    {x : Word × ℚ} (hx : x ∈ rankByContextualProbability table pre comps) :
    ∃ c ∈ comps, x.1 = c.1 := by
  rw [rankByContextualProbability] at hx
  cases hfind : tableFind table pre with
  | some contextData =>
      rw [hfind] at hx
      simp only [mem_sortRanked, List.mem_map] at hx
      obtain ⟨c, hc, hcx⟩ := hx
      exact ⟨c, hc, by rw [← hcx]⟩
  | none =>
      rw [hfind] at hx
      rw [rankByFrequency] at hx
      simp only [mem_sortRanked, List.mem_map] at hx
      obtain ⟨c, hc, hcx⟩ := hx
      exact ⟨c, hc, by rw [← hcx]⟩

theorem rank_sorted (table : BigramTable) (pre : Word) (comps : List (Word × Nat)) :
    List.Sorted probGE (rankByContextualProbability table pre comps) := by
  rw [rankByContextualProbability]
  cases tableFind table pre with
  | some contextData => exact sortRanked_sorted _
  | none => exact sortRanked_sorted _

/-! ### Node counting -/

theorem childrenCount_childSet : ∀ (cs : ChildrenA1) (x : Char) (n m : TrieNodeA1),
    childLookup cs x = some m →
    childrenCount (childSet cs x n) + nodeCount m = childrenCount cs + nodeCount n
  | .nil, x, n, m, h => by simp [childLookup] at h
  | .cons c k rest, x, n, m, h => by
      by_cases hc : c = x
      · subst hc
        simp only [childLookup, if_true, eq_self_iff_true, Option.some.injEq] at h
        subst h
        simp only [childSet, if_true, eq_self_iff_true, childrenCount]
        omega
      · simp only [childLookup, hc, if_false] at h
        simp only [childSet, hc, if_false, childrenCount]
        have := childrenCount_childSet rest x n m h
        omega

/-! ### Autocomplete result structure -/

theorem goSliceTo_some {l out : List (Word × ℚ)} {k : ℤ} (h : goSliceTo l k = some out) :
    out = l.take k.toNat := by
  rw [goSliceTo] at h
  by_cases hc : 0 ≤ k ∧ k ≤ (l.length : ℤ)
  · rw [if_pos hc] at h
    exact (Option.some.inj h).symm
  · rw [if_neg hc] at h
    cases h

theorem autocomplete_some {t : TrieA1} {pre : Word} {k : ℤ} {out : List (Word × ℚ)}
    (h : TrieA1.Autocomplete t pre k = some out) :
    out = [] ∨ ∃ node, searchPrefixA1 t.root pre = some node ∧
      out.Sublist (rankByContextualProbability t.bigramTable pre (collectNode node pre)) := by
  rw [TrieA1.Autocomplete] at h
  cases hs : searchPrefixA1 t.root pre with
  | none =>
      rw [hs] at h
      exact Or.inl (Option.some.inj h.symm)
  | some node =>
      rw [hs] at h
      exact Or.inr ⟨node, rfl, goSliceTo_some h ▸ List.take_sublist _ _⟩

/-! ### Sums of ranked probabilities -/

theorem sumProbs_map_div (comps : List (Word × Nat)) (g : Word × Nat → ℚ) (d : ℚ) :
    sumProbs (comps.map fun c => (c.1, g c / d)) = (comps.map g).sum / d := by
  rw [sumProbs, List.map_map, ← sum_map_div (comps.map g) d, List.map_map]
  rfl

theorem one_le_total {comps : List (Word × Nat)} (hne : comps ≠ [])
    (hwf : ∀ x ∈ comps, 1 ≤ x.2) :
    1 ≤ (comps.map Prod.snd).sum := by
  obtain ⟨c, hc⟩ := List.exists_mem_of_ne_nil comps hne
  calc 1 ≤ c.2 := hwf c hc
  _ ≤ (comps.map Prod.snd).sum := List.le_sum_of_mem (List.mem_map_of_mem Prod.snd hc)

theorem cast_sum_snd : ∀ (l : List (Word × Nat)),
    (l.map fun c => ((c.2 : Nat) : ℚ)).sum = (((l.map Prod.snd).sum : Nat) : ℚ)
  | [] => by simp
  | c :: rest => by simp [cast_sum_snd rest]

theorem sumProbs_rankByFrequency {comps : List (Word × Nat)} (hne : comps ≠ [])
    (hwf : ∀ x ∈ comps, 1 ≤ x.2) :
    sumProbs (rankByFrequency comps) = 1 := by
  rw [rankByFrequency]
  rw [sumProbs_sortRanked, foldl_add_sum comps 0, Nat.zero_add]
  rw [sumProbs_map_div comps (fun c => (c.2 : ℚ)) ((comps.map Prod.snd).sum : ℚ)]
  rw [cast_sum_snd comps]
  have hpos : (1 : ℚ) ≤ ((comps.map Prod.snd).sum : ℚ) := by
    exact_mod_cast one_le_total hne hwf
  exact div_self (by linarith)

/-! ### The `_total` aggregate invariant -/

theorem succSum_nil : succSum [] = 0 := by
  simp [succSum]

theorem succSum_cons_total (v : Nat) (rest : BigramRow) :
    succSum ((totalKey, v) :: rest) = succSum rest := by
  simp [succSum]

theorem succSum_cons_ne {k : Word} (hk : k ≠ totalKey) (v : Nat) (rest : BigramRow) :
    succSum ((k, v) :: rest) = v + succSum rest := by
  simp [succSum, hk]

theorem succSum_incr_total : ∀ (m : BigramRow), succSum (alistIncr m totalKey) = succSum m
  | [] => by simp [alistIncr, succSum_cons_total, succSum_nil]
  | (k, v) :: rest => by
      by_cases h : k = totalKey
      · subst h
        simp [alistIncr, succSum_cons_total]
      · simp [alistIncr, h, succSum_cons_ne h, succSum_incr_total rest]

theorem succSum_incr_ne : ∀ (m : BigramRow) (k : Word), k ≠ totalKey →
    succSum (alistIncr m k) = succSum m + 1
  | [], k, hk => by simp [alistIncr, succSum_cons_ne hk, succSum_nil]
  | (k1, v) :: rest, k, hk => by
      by_cases h : k1 = k
      · subst h
        simp [alistIncr, succSum_cons_ne hk]
        ring
      · by_cases h1 : k1 = totalKey
        · subst h1
          simp [alistIncr, h, succSum_cons_total, succSum_incr_ne rest k hk]
        · simp [alistIncr, h, succSum_cons_ne h1, succSum_incr_ne rest k hk]
          ring

theorem addBigram_rowOK (t : BigramTable) (w1 w2 : Word) (hw2 : w2 ≠ totalKey)
    (hinv : ∀ pre m, tableFind t pre = some m → alistGet m totalKey = succSum m) :
    ∀ pre m, tableFind (addBigram t w1 w2) pre = some m →
      alistGet m totalKey = succSum m := by
  intro pre m hfind
  by_cases hpre : w1 = pre
  · subst hpre
    rw [addBigram, tableFind_set_self] at hfind
    cases hfind
    have hrow : ∀ row : BigramRow, alistGet row totalKey = succSum row →
        alistGet (alistIncr (alistIncr row w2) totalKey) totalKey =
          succSum (alistIncr (alistIncr row w2) totalKey) := by
      intro row hrowOK
      rw [alistGet_incr_self, alistGet_incr_ne _ _ _ hw2, succSum_incr_total,
        succSum_incr_ne _ _ hw2, hrowOK]
    cases hfound : tableFind t w1 with
    | some r =>
        have := hrow r (hinv w1 r hfound)
        simpa [hfound] using this
    | none =>
        have hbase : alistGet [(totalKey, 0)] totalKey = succSum [(totalKey, 0)] := by
          simp [alistGet, succSum]
        have := hrow [(totalKey, 0)] hbase
        simpa [hfound] using this
  · rw [addBigram, tableFind_set_ne _ _ _ _ hpre] at hfind
    exact hinv pre m hfind

theorem buildPairs_rowOK : ∀ (ws : List Word) (t : BigramTable),
    (∀ w ∈ ws, w ≠ totalKey) →
    (∀ pre m, tableFind t pre = some m → alistGet m totalKey = succSum m) →
    ∀ pre m, tableFind (buildPairs t ws) pre = some m → alistGet m totalKey = succSum m
  | [], t, _, hinv => by simpa [buildPairs] using hinv
  | [w], t, _, hinv => by simpa [buildPairs] using hinv
  | w1 :: w2 :: rest, t, hws, hinv => by
      rw [buildPairs]
      refine buildPairs_rowOK (w2 :: rest) (addBigram t w1 w2) ?_ ?_
      · intro w hw
        exact hws w (List.mem_cons_of_mem w1 hw)
      · exact addBigram_rowOK t w1 w2 (hws w2 (by simp)) hinv

/-! ### Re-inserting a stored word -/

theorem insert_preserves_structure : ∀ (w : Word) (root n : TrieNodeA1),
    searchPrefixA1 root w = some n → n.isEnd = true →
    nodeCount (insertNode root w) = nodeCount root ∧
    getFrequency (insertNode root w) w = getFrequency root w + 1
  | [], .mk cs e f, n, hs, _ => by
      constructor
      · simp [insertNode, nodeCount]
      · simp [insertNode, getFrequency, TrieNodeA1.frequency]
  | x :: xs, .mk cs e f, n, hs, hend => by
      simp only [searchPrefixA1, TrieNodeA1.children] at hs
      cases hchild : childLookup cs x with
      | none => rw [hchild] at hs; cases hs
      | some child =>
          rw [hchild] at hs
          have ih := insert_preserves_structure xs child n hs hend
          constructor
          · show 1 + childrenCount (childSet cs x (insertNode ((childLookup cs x).getD NewTrieNodeA1) xs)) =
              1 + childrenCount cs
            rw [hchild]
            simp only [Option.getD_some]
            have hcount := childrenCount_childSet cs x (insertNode child xs) child hchild
            have h1 := ih.1
            omega
          · show getFrequency (TrieNodeA1.mk
              (childSet cs x (insertNode ((childLookup cs x).getD NewTrieNodeA1) xs)) e f) (x :: xs) =
              getFrequency (TrieNodeA1.mk cs e f) (x :: xs) + 1
            rw [hchild]
            simp only [getFrequency, TrieNodeA1.children, Option.getD_some]
            rw [childLookup_childSet_self, hchild]
            exact ih.2

/-- Both branches of `goTop10` return at most 10 entries: either the first
10 of a longer list, or the list itself, then no longer than 10. -/
theorem goTop10_le (l : List Word) : (goTop10 l).length ≤ 10 := by
  rw [goTop10]
  by_cases h : l.length > 10
  · simp [h, List.length_take]
  · simp [h]
    omega

/-! ### Claims -/

/-- Claim C1: contextual ranking keys the bigram-table lookup by the
supplied preceding word: when the table has a row for it, each returned
completion's probability is `bigramCount(precedingWord→word) /
bigramTotal(precedingWord)`; when no row exists (also when no preceding
word is supplied — `TrieA1.Autocomplete` passes the query prefix as the
key, which is how "none supplied" manifests), the result is exactly the
frequency ranking of the same completion set. -/
theorem claim_C1 (table : BigramTable) (pre : Word) (comps : List (Word × Nat)) :
    (∀ m, tableFind table pre = some m →
      ∀ x ∈ rankByContextualProbability table pre comps,
        x.2 = (alistGet m x.1 : ℚ) / (alistGet m totalKey : ℚ))
    ∧ (tableFind table pre = none →
      rankByContextualProbability table pre comps = rankByFrequency comps) := by
  constructor
  · intro m hm x hx
    rw [rankByContextualProbability, hm, mem_sortRanked] at hx
    obtain ⟨c, _, hcx⟩ := List.mem_map.1 hx
    rw [← hcx]
  · intro hnone
    rw [rankByContextualProbability, hnone]

/-- Witness for C1 at concrete inputs: a table with a row for the key (the
probability formula holds for every output entry) and the empty table (the
output is the frequency ranking). -/
theorem claim_C1_witness :
    (∀ x ∈ rankByContextualProbability [(wA, [(totalKey, 1), (wB, 1)])] wA [(wB, 1)],
      x.2 = (alistGet [(totalKey, 1), (wB, 1)] x.1 : ℚ) /
        (alistGet [(totalKey, 1), (wB, 1)] totalKey : ℚ))
    ∧ rankByContextualProbability [] wA [(wB, 1)] = rankByFrequency [(wB, 1)] :=
  ⟨(claim_C1 [(wA, [(totalKey, 1), (wB, 1)])] wA [(wB, 1)]).1 [(totalKey, 1), (wB, 1)] rfl,
   (claim_C1 [] wA [(wB, 1)]).2 rfl⟩

/-- Claim C2 is a code bug: the claim (and the spec) promise an empty list
for zero or negative `k`, but Go's `rankedCompletions[:k]` panics for
negative `k` whenever the prefix is present. At the failing input — the
word `a` inserted, then `Autocomplete("a", -1)` — the code panics (`none`).
`k = 0` does return the empty list. -/
theorem claim_C2_bug :
    TrieA1.Autocomplete (TrieA1.Insert NewTrieA1 wA) wA (-1) = none
    ∧ TrieA1.Autocomplete (TrieA1.Insert NewTrieA1 wA) wA 0 = some [] := by
  constructor
  · with_unfolding_all decide
  · with_unfolding_all decide

/-- Counterexample to C3: for corpus `["hello", "world"]` the query prefix
`hello` has a non-empty completion set (`hello` itself, frequency 1) and
hits the bigram row of predecessor `hello`; the only completion never
follows `hello` in the corpus, so its probability is 0 and the returned
probabilities sum to 0, not 1. -/
theorem claim_C3_cex :
    Option.map (fun n => collectNode n wHello)
        (searchPrefixA1 (buildTrie [wHello, wWorld]).root wHello) = some [(wHello, 1)]
    ∧ TrieA1.Autocomplete (buildTrie [wHello, wWorld]) wHello 5 = some [(wHello, 0)]
    ∧ sumProbs [(wHello, 0)] ≠ 1 := by
  refine ⟨?_, ?_, ?_⟩
  · rfl
  · with_unfolding_all decide
  · with_unfolding_all decide

/-- Claim C3 as amended: for every query against a built trie whose prefix
is found, (1) when the bigram table has no row for the key and the
completion set is non-empty, the returned probabilities sum to exactly 1
(the frequency strategy); (2) when a row exists, the sum equals
`(Σ over completions of bigramCount(key→word)) / bigramTotal(key)`, which
may be less than 1; (3) when the completion set is empty, the returned
list is empty. -/
theorem claim_C3_amended (ws : List Word) (pre : Word) (node : TrieNodeA1)
    (hnode : searchPrefixA1 (buildTrie ws).root pre = some node) :
    (tableFind (buildTrie ws).bigramTable pre = none →
      collectNode node pre ≠ [] →
      sumProbs (rankByContextualProbability (buildTrie ws).bigramTable pre
        (collectNode node pre)) = 1)
    ∧ (∀ m, tableFind (buildTrie ws).bigramTable pre = some m →
      sumProbs (rankByContextualProbability (buildTrie ws).bigramTable pre
          (collectNode node pre)) =
        ((collectNode node pre).map fun c => (alistGet m c.1 : ℚ)).sum /
          (alistGet m totalKey : ℚ))
    ∧ (collectNode node pre = [] →
      rankByContextualProbability (buildTrie ws).bigramTable pre
        (collectNode node pre) = []) := by
  refine ⟨?_, ?_, ?_⟩
  · intro hnone hne
    rw [rankByContextualProbability, hnone]
    refine sumProbs_rankByFrequency hne ?_
    intro x hx
    exact nodeWF_collect node pre x
      (nodeWF_search pre _ node (buildTrie_root_wf ws) hnode) hx
  · intro m hm
    rw [rankByContextualProbability, hm, sumProbs_sortRanked]
    exact sumProbs_map_div (collectNode node pre) (fun c => (alistGet m c.1 : ℚ)) _
  · intro hempty
    rw [hempty, rankByContextualProbability]
    cases tableFind (buildTrie ws).bigramTable pre with
    | some contextData => simp [sortRanked, rankByFrequency]
    | none => simp [sortRanked, rankByFrequency]

/-- Witness for the amended C3 at concrete inputs: corpus `["a"]` with
query prefix `""` exercises the frequency branch (sum is 1); corpus
`["hello", "world"]` with query `hello` exercises the contextual branch;
the empty corpus with query `""` exercises the empty completion set. -/
theorem claim_C3_amended_witness :
    sumProbs (rankByContextualProbability (buildTrie [wA]).bigramTable []
        (collectNode (TrieNodeA1.mk (ChildrenA1.cons 'a' (TrieNodeA1.mk .nil true 1) .nil)
          false 0) [])) = 1
    ∧ sumProbs (rankByContextualProbability (buildTrie [wHello, wWorld]).bigramTable wHello
          (collectNode (TrieNodeA1.mk .nil true 1) wHello)) =
        ((collectNode (TrieNodeA1.mk .nil true 1) wHello).map fun c =>
          (alistGet [(totalKey, 1), (wWorld, 1)] c.1 : ℚ)).sum /
          (alistGet [(totalKey, 1), (wWorld, 1)] totalKey : ℚ)
    ∧ rankByContextualProbability (buildTrie []).bigramTable []
        (collectNode NewTrieNodeA1 []) = [] :=
  ⟨(claim_C3_amended [wA] [] _ rfl).1 rfl (by decide),
   (claim_C3_amended [wHello, wWorld] wHello _ rfl).2.1 [(totalKey, 1), (wWorld, 1)] rfl,
   (claim_C3_amended [] [] NewTrieNodeA1 rfl).2.2 rfl⟩

/-- Claim C4: for tries built by `Insert` (and their bigram tables built by
`BuildBigramTable`), ranking never divides by zero: the contextual
divisor — the predecessor's `_total` aggregate — is at least 1 whenever the
row exists, and the frequency divisor — the running sum of completion
frequencies — is at least 1 whenever the completion set is non-empty. -/
theorem claim_C4 (ws : List Word) (pre : Word) :
    (∀ m, tableFind (buildTrie ws).bigramTable pre = some m → 1 ≤ alistGet m totalKey)
    ∧ (∀ node, searchPrefixA1 (buildTrie ws).root pre = some node →
        collectNode node pre ≠ [] →
        1 ≤ (collectNode node pre).foldl (fun acc c => acc + c.2) 0) := by
  constructor
  · exact fun m => buildTrie_total ws pre m
  · intro node hnode hne
    rw [foldl_add_sum _ 0, Nat.zero_add]
    refine one_le_total hne ?_
    intro x hx
    exact nodeWF_collect node pre x
      (nodeWF_search pre _ node (buildTrie_root_wf ws) hnode) hx

/-- Witness for C4 at the corpus `["hello", "world"]` and prefix `hello`:
the `hello` row's `_total` is at least 1, and the completion frequency sum
below the `hello` node is at least 1. -/
theorem claim_C4_witness :
    1 ≤ alistGet [(totalKey, 1), (wWorld, 1)] totalKey
    ∧ 1 ≤ (collectNode (TrieNodeA1.mk .nil true 1) wHello).foldl
        (fun acc c => acc + c.2) 0 :=
  ⟨(claim_C4 [wHello, wWorld] wHello).1 [(totalKey, 1), (wWorld, 1)] rfl,
   (claim_C4 [wHello, wWorld] wHello).2 (TrieNodeA1.mk .nil true 1) rfl (by decide)⟩

/-- Claim C5: every list produced by the ranking strategies, and hence every
list returned by `Autocomplete`, is ordered by non-increasing probability:
`i < j` implies `probability[i] ≥ probability[j]`. -/
theorem claim_C5 (table : BigramTable) (pre : Word) (comps : List (Word × Nat))
    (t : TrieA1) (k : ℤ) (out : List (Word × ℚ)) :
    (∀ i j : Fin (rankByContextualProbability table pre comps).length, i < j →
      ((rankByContextualProbability table pre comps).get j).2 ≤
        ((rankByContextualProbability table pre comps).get i).2)
    ∧ (TrieA1.Autocomplete t pre k = some out →
      ∀ i j : Fin out.length, i < j → (out.get j).2 ≤ (out.get i).2) := by
  constructor
  · intro i j hij
    exact (rank_sorted table pre comps).rel_get_of_lt hij
  · intro h i j hij
    have hsorted : List.Sorted probGE out := by
      rcases autocomplete_some h with rfl | ⟨node, _, hsub⟩
      · exact List.sorted_nil
      · exact List.Pairwise.sublist hsub (rank_sorted _ _ _)
    exact hsorted.rel_get_of_lt hij

/-- Witness for C5: the frequency ranking of two equal-frequency
completions, and `Autocomplete` on the corpus `["a", "b"]` with the empty
prefix, are both non-increasing between positions 0 and 1. -/
theorem claim_C5_witness :
    ((rankByContextualProbability [] [] [(wA, 1), (wB, 1)]).get
        ⟨1, by with_unfolding_all decide⟩).2 ≤
      ((rankByContextualProbability [] [] [(wA, 1), (wB, 1)]).get
        ⟨0, by with_unfolding_all decide⟩).2
    ∧ ([(wA, (1 : ℚ)/2), (wB, (1 : ℚ)/2)].get ⟨1, by decide⟩).2 ≤
      ([(wA, (1 : ℚ)/2), (wB, (1 : ℚ)/2)].get ⟨0, by decide⟩).2 :=
  ⟨(claim_C5 [] [] [(wA, 1), (wB, 1)] NewTrieA1 0 []).1
      ⟨0, by with_unfolding_all decide⟩ ⟨1, by with_unfolding_all decide⟩ (by decide),
   (claim_C5 [] [] [] (buildTrie [wA, wB]) 2 [(wA, (1 : ℚ)/2), (wB, (1 : ℚ)/2)]).2
      (by with_unfolding_all decide) ⟨0, by decide⟩ ⟨1, by decide⟩ (by decide)⟩

/-- Claim C6: every word in a list returned by `Autocomplete(p, k)` has `p`
as a prefix. -/
theorem claim_C6 (t : TrieA1) (pre : Word) (k : ℤ) (out : List (Word × ℚ))
    (h : TrieA1.Autocomplete t pre k = some out) :
    ∀ x ∈ out, pre <+: x.1 := by
  intro x hx
  rcases autocomplete_some h with rfl | ⟨node, _, hsub⟩
  · cases hx
  · obtain ⟨c, hc, hcx⟩ := mem_rank_exists (hsub.subset hx)
    rw [hcx]
    exact collectNode_isPre node pre c hc

/-- Witness for C6: on the corpus `["hello"]`, `Autocomplete("he", 3)`
returns `[("hello", 1)]`, and `he` is a prefix of the returned word
`hello`. -/
theorem claim_C6_witness : wHe <+: wHello :=
  claim_C6 (buildTrie [wHello]) wHe 3 [(wHello, 1)] (by with_unfolding_all decide)
    (wHello, 1) (by simp)

/-- Claim C7: re-inserting a word already stored in the trie (its path
exists and ends at an end-of-word node) creates no new nodes and increases
that word's frequency by exactly 1. -/
theorem claim_C7 (t : TrieA1) (w : Word) (n : TrieNodeA1)
    (hs : searchPrefixA1 t.root w = some n) (hend : n.isEnd = true) :
    nodeCount (TrieA1.Insert t w).root = nodeCount t.root
    ∧ getFrequency (TrieA1.Insert t w).root w = getFrequency t.root w + 1 :=
  insert_preserves_structure w t.root n hs hend

/-- Witness for C7: inserting `a` again into the trie that already stores
`a` keeps the node count and bumps the frequency from 1 to 2. -/
theorem claim_C7_witness :
    nodeCount (TrieA1.Insert (TrieA1.Insert NewTrieA1 wA) wA).root =
      nodeCount (TrieA1.Insert NewTrieA1 wA).root
    ∧ getFrequency (TrieA1.Insert (TrieA1.Insert NewTrieA1 wA) wA).root wA =
      getFrequency (TrieA1.Insert NewTrieA1 wA).root wA + 1 :=
  claim_C7 (TrieA1.Insert NewTrieA1 wA) wA (TrieNodeA1.mk .nil true 1) rfl rfl

/-- Claim C8: when the prefix's code-point path is absent from the trie,
`Autocomplete` returns the empty list for every requested count — it never
fails (not even for negative `k`, since the empty return precedes the
slicing). -/
theorem claim_C8 (t : TrieA1) (pre : Word) (k : ℤ)
    (h : searchPrefixA1 t.root pre = none) :
    TrieA1.Autocomplete t pre k = some [] := by
  rw [TrieA1.Autocomplete, h]

/-- Witness for C8: `Autocomplete("xyz", 5)` on the corpus
`["hello", "world"]` returns the empty list. -/
theorem claim_C8_witness :
    TrieA1.Autocomplete (buildTrie [wHello, wWorld]) wXyz 5 = some [] :=
  claim_C8 (buildTrie [wHello, wWorld]) wXyz 5 rfl

/-- Claim C9: the frequency-based `Autocomplete` (both the `TriesA2` and the
identical `Tries` variant) returns at most 10 suggestions for every trie
and prefix; no count parameter exists. -/
theorem claim_C9 (t : TriesA2) (pre : Word) : (TriesA2.Autocomplete t pre).length ≤ 10 := by
  rw [TriesA2.Autocomplete]
  cases searchPrefixA1 t.root pre with
  | none => simp
  | some current => exact goTop10_le _

/-- Claim C10: the bigram table stores each predecessor's aggregate under
the reserved successor key `_total`; when no corpus word is the literal
string `_total`, every predecessor's `_total` entry equals the sum of its
genuine successor counts. When a corpus word is literally `_total`
(corpus `["a", "_total"]`), the aggregate and the successor count share
the single `_total` entry and the invariant fails. -/
theorem claim_C10 :
    (∀ ws : List Word, totalKey ∉ ws →
      ∀ pre m, tableFind (buildTrie ws).bigramTable pre = some m →
        alistGet m totalKey = succSum m)
    ∧ (tableFind (buildTrie [wA, totalKey]).bigramTable wA = some [(totalKey, 2)]
       ∧ ¬ alistGet [(totalKey, 2)] totalKey = succSum [(totalKey, 2)]) := by
  refine ⟨?_, ?_, ?_⟩
  · intro ws hws pre m hfind
    rw [buildTrie_table] at hfind
    refine buildPairs_rowOK ws [] ?_ (fun pre m h => by cases h) pre m hfind
    intro w hw hweq
    exact hws (hweq ▸ hw)
  · decide
  · decide

/-- Witness for C10 on the corpus `["a", "b"]` (which does not contain
`_total`): the `a` row's aggregate 1 equals its successor-count sum 1. -/
theorem claim_C10_witness :
    alistGet [(totalKey, 1), (wB, 1)] totalKey = succSum [(totalKey, 1), (wB, 1)] :=
  claim_C10.1 [wA, wB] (by decide) wA [(totalKey, 1), (wB, 1)] rfl

end AutoComplete
